import Mathlib

/-!
Shallow embedding of `babel-plugin-undebug` (src/index.js).

The plugin visits one Program: it collects `debugReferences` (a set of
tainted bindings) and `pathsToRemove` (a set of node paths) during a single
depth-first traversal, replaces pure member-expression reads of tainted
bindings by the identifier `undefined` in place during the traversal, and
removes all collected paths after the traversal.

Modelling choices (documented once here):
* Programs are flat statement lists (the shapes the plugin handles live at
  program level); there is thus a single lexical scope, so a babel binding
  is identified by its name and `path.scope.getBinding(n)` succeeds exactly
  when `n` is declared by some declarator or import specifier of the
  program (babel registers all of them when it crawls the program scope).
* Tree nodes are addressed by their path from the root (`Addr`): statement
  `i` is `[i]`, declarator `j` of statement `i` is `[i, j]`, its init is
  `[i, j, 1]`, the expression of an expression statement `i` is `[i, 0]`,
  a call's callee is child `0` and its k-th argument child `k+1`, a member
  expression's object is child `0`.  `pathsToRemove` becomes a list of
  addresses with idempotent insertion (a JS `Set` of paths).
* Identifier nodes that are declaration names (declarator ids, object
  pattern properties, import specifier locals) are not traversed as
  expressions: the visitor's own guards (`isVariableDeclarator({id: node})`
  and the parent-shape checks) make every such visit a no-op, as does the
  visit of a non-computed member expression's property identifier.
* `path.remove()` on a node whose parent keeps it in an array container
  splices it out; on a sole expression child it sets the child to null
  (modelled by `Expr.nullNode`); babel's removal hooks delete an
  `ExpressionStatement` whose expression was removed and a
  `VariableDeclaration` whose last declarator was removed.  Removing a node
  already detached by an ancestor's removal has no effect on the output.
-/

mutual
inductive Expr where
  | ident (name : String)
  | str (value : String)
  | num (value : Int)
  | nullNode
  | call (callee : Expr) (args : ExprList)
  | member (obj : Expr) (prop : String)
  deriving DecidableEq

/-- Argument lists of call expressions (isomorphic to `List Expr`;
a separate type keeps all recursions structural). -/
inductive ExprList where
  | nil
  | cons (head : Expr) (tail : ExprList)
  deriving DecidableEq
end

inductive Pat where
  | id (name : String)
  | objPat (names : List String)
  deriving DecidableEq

structure Declarator where
  id : Pat
  init : Option Expr
  deriving DecidableEq

inductive ImportSpec where
  | namespaceSpec (lcl : String)
  | defaultSpec (lcl : String)
  | namedSpec (imported : String) (lcl : String)
  deriving DecidableEq

inductive Stmt where
  | varDecl (decls : List Declarator)
  | importDecl (source : String) (specifiers : List ImportSpec)
  | exprStmt (e : Expr)
  deriving DecidableEq

abbrev Program := List Stmt

abbrev Addr := List Nat

def localName : ImportSpec → String
  | .namespaceSpec l => l
  | .defaultSpec l => l
  | .namedSpec _ l => l

def patNames : Pat → List String
  | .id n => [n]
  | .objPat ns => ns

def declaredOfStmt : Stmt → List String
  | .varDecl ds => ds.foldr (fun d acc => patNames d.id ++ acc) []
  | .importDecl _ sps => sps.map localName
  | .exprStmt _ => []

/-- The names the program scope binds (babel's scope crawl of the flat
program registers every declarator name and import specifier local). -/
def declaredNames : Program → List String
  | [] => []
  | st :: rest => declaredOfStmt st ++ declaredNames rest

/-- `node.value` as compared against the string `'debug'`: only a string
literal can produce a matching value. -/
def litValue : Expr → Option String
  | .str v => some v
  | _ => none

/-- Analysis state: `tainted` models `debugReferences`, `marks` models
`pathsToRemove`; both are JS `Set`s, so insertion is idempotent and keeps
insertion order. -/
structure AState where
  tainted : List String
  marks : List Addr
  deriving DecidableEq

def addTaint (n : String) (s : AState) : AState :=
  if n ∈ s.tainted then s else { s with tainted := s.tainted ++ [n] }

def addMark (a : Addr) (s : AState) : AState :=
  if a ∈ s.marks then s else { s with marks := s.marks ++ [a] }

/-- `getVariablePathToRemove`: if the parent declaration has exactly one
declarator, remove the whole declaration, otherwise just this declarator. -/
def getVariablePathToRemove (dAddr declnAddr : Addr) (sibs : Nat) : Addr :=
  if sibs = 1 then declnAddr else dAddr

/-- `path.scope.getBinding(pat.name)` followed by `debugReferences.add`:
an object pattern has no `.name`, so no binding is looked up for it. -/
def taintIdPat (declared : List String) (p : Pat) (s : AState) : AState :=
  match p with
  | .id m => if m ∈ declared then addTaint m s else s
  | .objPat _ => s

/-- `arguments.length > 0 && arguments[0].value === 'debug'`. -/
def firstArgIsDebug : ExprList → Bool
  | .cons a _ => litValue a == some "debug"
  | .nil => false

/-- One ancestor of the node being visited: its kind, its address, and the
slot through which the visit descended. -/
inductive Anc where
  | call (addr : Addr) (isCallee : Bool)
  | member (addr : Addr)
  | declarator (dAddr : Addr) (id : Pat) (sibs : Nat) (declnAddr : Addr)
  | stmtExpr (addr : Addr)
  deriving DecidableEq

def ancNodeAddr : Anc → Addr
  | .call a _ => a
  | .member a => a
  | .declarator a _ _ _ => a
  | .stmtExpr a => a

/-- `findParent((p) => p.isVariableDeclarator())` over the ancestor chain. -/
def findDeclarator : List Anc → Option (Addr × Pat × Nat × Addr)
  | [] => none
  | .declarator a p k d :: _ => some (a, p, k, d)
  | _ :: rest => findDeclarator rest

/-- The `VariableDeclarator` visitor: the two `require('debug')` seed
checks and the destructuring-from-tainted check, in source order. -/
def varDeclaratorVisitor (declared : List String) (dAddr declnAddr : Addr) (sibs : Nat)
    (d : Declarator) (s : AState) : AState :=
  let s1 :=
    match d.init with
    | some (.call (.ident "require") args) =>
        if firstArgIsDebug args then
          addMark (getVariablePathToRemove dAddr declnAddr sibs) (taintIdPat declared d.id s)
        else s
    | _ => s
  let s2 :=
    match d.init with
    | some (.call (.call (.ident "require") args) _) =>
        if firstArgIsDebug args then
          addMark (getVariablePathToRemove dAddr declnAddr sibs) (taintIdPat declared d.id s1)
        else s1
    | _ => s1
  match d.id, d.init with
  | .objPat names, some (.ident m) =>
      if m ∈ declared ∧ m ∈ s2.tainted then
        addMark (getVariablePathToRemove dAddr declnAddr sibs)
          (names.foldl (fun acc nm => if nm ∈ declared then addTaint nm acc else acc) s2)
      else s2
  | _, _ => s2

/-- The `ImportDeclaration` visitor. -/
def visitImportDecl (declared : List String) (i : Nat) (source : String)
    (specifiers : List ImportSpec) (s : AState) : AState :=
  if source == "debug" then
    addMark [i]
      (specifiers.foldl (fun acc sp =>
        if localName sp ∈ declared then addTaint (localName sp) acc else acc) s)
  else s

/-- The `CallExpression` visitor, run on entering a call whose callee is
`callee`; `ctx` is the ancestor chain of the call node. -/
def callVisitor (declared : List String) (ctx : List Anc) (callee : Expr) (s : AState) : AState :=
  let s1 :=
    match callee with
    | .ident n =>
        if n ∈ declared ∧ n ∈ s.tainted then
          match ctx with
          | .declarator dAddr idPat sibs declnAddr :: _ =>
              addMark (getVariablePathToRemove dAddr declnAddr sibs) (taintIdPat declared idPat s)
          | anc :: _ => addMark (ancNodeAddr anc) s
          | [] => s
        else s
    | _ => s
  match callee with
  | .member (.ident n) _ =>
      if n ∈ declared ∧ n ∈ s1.tainted then
        match ctx with
        | anc :: _ => addMark (ancNodeAddr anc) s1
        | [] => s1
      else s1
  | _ => s1

/-- The `Identifier` visitor for a reference occurrence of `n`; `ctx` is
the ancestor chain.  The returned flag requests that the caller replace
the parent member expression of this identifier by `undefined`
(`memberExp.replaceWith(t.identifier('undefined'))`). -/
def identVisitor (declared : List String) (ctx : List Anc) (n : String) (s : AState) :
    AState × Bool :=
  if n ∈ declared ∧ n ∈ s.tainted then
    match ctx with
    | .call _ true :: rest =>
        (match rest with
         | anc :: _ => (addMark (ancNodeAddr anc) s, false)
         | [] => (s, false))
    | .declarator dAddr idPat sibs declnAddr :: _ =>
        (addMark (getVariablePathToRemove dAddr declnAddr sibs) (taintIdPat declared idPat s),
          false)
    | .member _ :: rest =>
        (match rest with
         | .call _ true :: rest2 =>
             (match rest2 with
              | anc :: _ => (addMark (ancNodeAddr anc) s, false)
              | [] => (s, false))
         | _ =>
             match findDeclarator rest with
             | some (dAddr, idPat, sibs, declnAddr) =>
                 (addMark (getVariablePathToRemove dAddr declnAddr sibs)
                    (taintIdPat declared idPat s), false)
             | none => (s, true))
    | _ => (s, false)
  else (s, false)

mutual
/-- Depth-first visit of an expression at `addr` with ancestor chain `ctx`:
fires the `CallExpression` and `Identifier` visitors in babel's enter
order (node before children, callee before arguments, object before
property).  Returns the possibly rewritten node, the state, and the
replace-parent-member flag; a replacement node is requeued and visited. -/
def visitExpr (declared : List String) (addr : Addr) (ctx : List Anc) (e : Expr) (s : AState) :
    Expr × AState × Bool :=
  match e with
  | .call callee args =>
      let s0 := callVisitor declared ctx callee s
      let r1 := visitExpr declared (addr ++ [0]) (.call addr true :: ctx) callee s0
      let r2 := visitArgs declared addr 1 (.call addr false :: ctx) args r1.2.1
      (.call r1.1 r2.1, r2.2, false)
  | .member obj prop =>
      let r := visitExpr declared (addr ++ [0]) (.member addr :: ctx) obj s
      if r.2.2 then
        let r2 := identVisitor declared ctx "undefined" r.2.1
        (.ident "undefined", r2.1, r2.2)
      else
        (.member r.1 prop, r.2.1, false)
  | .ident n =>
      let r := identVisitor declared ctx n s
      (.ident n, r.1, r.2)
  | e => (e, s, false)

def visitArgs (declared : List String) (base : Addr) (k : Nat) (ctx : List Anc)
    (args : ExprList) (s : AState) : ExprList × AState :=
  match args with
  | .nil => (.nil, s)
  | .cons a rest =>
      let r1 := visitExpr declared (base ++ [k]) ctx a s
      let r2 := visitArgs declared base (k + 1) ctx rest r1.2.1
      (.cons r1.1 r2.1, r2.2)
end

def visitDecls (declared : List String) (i : Nat) (sibs : Nat) (j : Nat)
    (ds : List Declarator) (s : AState) : List Declarator × AState :=
  match ds with
  | [] => ([], s)
  | d :: rest =>
      let s1 := varDeclaratorVisitor declared [i, j] [i] sibs d s
      let r :=
        match d.init with
        | none => (none, s1)
        | some e =>
            let re := visitExpr declared [i, j, 1] [.declarator [i, j] d.id sibs [i]] e s1
            (some re.1, re.2.1)
      let r2 := visitDecls declared i sibs (j + 1) rest r.2
      (⟨d.id, r.1⟩ :: r2.1, r2.2)

def visitStmt (declared : List String) (i : Nat) (st : Stmt) (s : AState) : Stmt × AState :=
  match st with
  | .varDecl ds =>
      let r := visitDecls declared i ds.length 0 ds s
      (.varDecl r.1, r.2)
  | .importDecl source specifiers => (st, visitImportDecl declared i source specifiers s)
  | .exprStmt e =>
      let r := visitExpr declared [i, 0] [.stmtExpr [i]] e s
      (.exprStmt r.1, r.2.1)

def visitStmts (declared : List String) (i : Nat) (p : Program) (s : AState) :
    Program × AState :=
  match p with
  | [] => ([], s)
  | st :: rest =>
      let r1 := visitStmt declared i st s
      let r2 := visitStmts declared (i + 1) rest r1.2
      (r1.1 :: r2.1, r2.2)

/-- The analysis traversal (`path.traverse({...})`) from an initial state:
returns the tree as it stands when the traversal finishes together with
the final `debugReferences`/`pathsToRemove` state. -/
def analyzeWith (s0 : AState) (p : Program) : Program × AState :=
  visitStmts (declaredNames p) 0 p s0

def analyze (p : Program) : Program × AState := analyzeWith ⟨[], []⟩ p

mutual
/-- Removal of marked descendants inside an expression that itself
survives: a marked callee or member object becomes null, a marked
argument is spliced out of the argument array. -/
def removeExpr (marks : List Addr) (addr : Addr) (e : Expr) : Expr :=
  match e with
  | .call callee args =>
      let c' :=
        if addr ++ [0] ∈ marks then Expr.nullNode else removeExpr marks (addr ++ [0]) callee
      .call c' (removeArgs marks addr 1 args)
  | .member obj prop =>
      let o' :=
        if addr ++ [0] ∈ marks then Expr.nullNode else removeExpr marks (addr ++ [0]) obj
      .member o' prop
  | e => e

def removeArgs (marks : List Addr) (base : Addr) (k : Nat) (args : ExprList) : ExprList :=
  match args with
  | .nil => .nil
  | .cons a rest =>
      let rest' := removeArgs marks base (k + 1) rest
      if base ++ [k] ∈ marks then rest' else .cons (removeExpr marks (base ++ [k]) a) rest'
end

def applyDecls (marks : List Addr) (i j : Nat) (ds : List Declarator) : List Declarator :=
  match ds with
  | [] => []
  | d :: rest =>
      let rest' := applyDecls marks i (j + 1) rest
      if [i, j] ∈ marks then rest'
      else
        let init' :=
          match d.init with
          | none => none
          | some e => if [i, j, 1] ∈ marks then none else some (removeExpr marks [i, j, 1] e)
        ⟨d.id, init'⟩ :: rest'

/-- Removal applied to one statement: `none` when the statement itself
disappears (it was marked, its sole expression was removed, or its last
declarator was removed — babel's removal hooks). -/
def applyStmt (marks : List Addr) (i : Nat) (st : Stmt) : Option Stmt :=
  match st with
  | .importDecl _ _ => if [i] ∈ marks then none else some st
  | .exprStmt e =>
      if [i] ∈ marks then none
      else if [i, 0] ∈ marks then none
      else some (.exprStmt (removeExpr marks [i, 0] e))
  | .varDecl ds =>
      if [i] ∈ marks then none
      else
        let ds' := applyDecls marks i 0 ds
        if ds'.isEmpty && !ds.isEmpty then none else some (.varDecl ds')

/-- `for (const path of pathsToRemove) if (path.node) path.remove()`:
apply every recorded removal once the traversal is over; removals of
already-detached descendants are no-ops. -/
def applyRemovals (marks : List Addr) (i : Nat) (p : Program) : Program :=
  match p with
  | [] => []
  | st :: rest =>
      match applyStmt marks i st with
      | none => applyRemovals marks (i + 1) rest
      | some st' => st' :: applyRemovals marks (i + 1) rest

/-- The whole plugin pass on one program. -/
def transform (p : Program) : Program :=
  let r := analyze p
  applyRemovals r.2.marks 0 r.1

/- Convenience constructors for concrete programs. -/
def arg1 (e : Expr) : ExprList := .cons e .nil
def requireDebug : Expr := .call (.ident "require") (arg1 (.str "debug"))

/-- An initializer shape that seeds taint at a declarator:
`require('debug')`, possibly immediately invoked. -/
def seedInit : Option Expr → Bool
  | some (.call (.ident "require") args) => firstArgIsDebug args
  | some (.call (.call (.ident "require") args) _) => firstArgIsDebug args
  | _ => false

def stmtSeedFree : Stmt → Bool
  | .varDecl ds => ds.all (fun d => !seedInit d.init)
  | .importDecl source _ => !(source == "debug")
  | .exprStmt _ => true

/-- No declarator of the program has a seeding initializer and no import
statement names the `debug` module. -/
def seedFree (p : Program) : Bool := p.all stmtSeedFree

mutual
/-- `e'` is `e` with some member-expression nodes replaced in place by the
placeholder identifier `undefined`, and nothing else changed. -/
def exprReplOnly : Expr → Expr → Bool
  | .member _ _, .ident u => u == "undefined"
  | .member o p, .member o' p' => exprReplOnly o o' && p == p'
  | .ident a, .ident b => a == b
  | .str a, .str b => a == b
  | .num a, .num b => a == b
  | .nullNode, .nullNode => true
  | .call c a, .call c' a' => exprReplOnly c c' && argsReplOnly a a'
  | _, _ => false

def argsReplOnly : ExprList → ExprList → Bool
  | .nil, .nil => true
  | .cons e r, .cons e' r' => exprReplOnly e e' && argsReplOnly r r'
  | _, _ => false
end

def optInitReplOnly : Option Expr → Option Expr → Bool
  | none, none => true
  | some a, some b => exprReplOnly a b
  | _, _ => false

def declsReplOnly : List Declarator → List Declarator → Bool
  | [], [] => true
  | d :: r, d' :: r' => d.id == d'.id && optInitReplOnly d.init d'.init && declsReplOnly r r'
  | _, _ => false

def stmtReplOnly : Stmt → Stmt → Bool
  | .varDecl ds, .varDecl ds' => declsReplOnly ds ds'
  | .importDecl a b, .importDecl a' b' => a == a' && b == b'
  | .exprStmt e, .exprStmt e' => exprReplOnly e e'
  | _, _ => false

def progReplOnly : Program → Program → Bool
  | [], [] => true
  | st :: r, st' :: r' => stmtReplOnly st st' && progReplOnly r r'
  | _, _ => false

/-- The i-th chain binding name: `"b"`, `"bb"`, `"bbb"`, ... (an injective
family of identifier names). -/
def bName (i : Nat) : String := String.mk (List.replicate i 'b')

def seedStmt : Stmt := Stmt.varDecl [⟨Pat.id "d", some requireDebug⟩]

def b1Stmt : Stmt :=
  Stmt.varDecl [⟨Pat.id (bName 1), some (.call (.ident "d") (arg1 (.str "x")))⟩]

def aliasFrom : Nat → Nat → List Stmt
  | _, 0 => []
  | i, c + 1 =>
      Stmt.varDecl [⟨Pat.id (bName (i + 1)), some (.ident (bName i))⟩] :: aliasFrom (i + 1) c

/-- `var d = require("debug"); var b1 = d("x"); var b2 = b1; ...`:
a chain of `m + 1` bindings derived from the target module. -/
def chainProg (m : Nat) : Program := seedStmt :: b1Stmt :: aliasFrom 1 m

/-- The j-th multi-declarator name: `"x"`, `"xx"`, ... -/
def xName (j : Nat) : String := String.mk (List.replicate (j + 1) 'x')

/-- Declarators `x0 = d("x"), x1 = 1, ...`: entry `true` means the
initializer derives from the tainted binding `d`, entry `false` means an
unrelated literal initializer. -/
def maskDecls : Nat → List Bool → List Declarator
  | _, [] => []
  | j, true :: rest =>
      ⟨Pat.id (xName j), some (Expr.call (.ident "d") (arg1 (.str "x")))⟩
        :: maskDecls (j + 1) rest
  | j, false :: rest => ⟨Pat.id (xName j), some (Expr.num 1)⟩ :: maskDecls (j + 1) rest

/-- The non-derived declarators of the mask, in their original order. -/
def keepDecls : Nat → List Bool → List Declarator
  | _, [] => []
  | j, true :: rest => keepDecls (j + 1) rest
  | j, false :: rest => ⟨Pat.id (xName j), some (Expr.num 1)⟩ :: keepDecls (j + 1) rest

def maskMarks : Nat → List Bool → List Addr
  | _, [] => []
  | j, true :: rest => [1, j] :: maskMarks (j + 1) rest
  | j, false :: rest => maskMarks (j + 1) rest

def maskTaints : Nat → List Bool → List String
  | _, [] => []
  | j, true :: rest => xName j :: maskTaints (j + 1) rest
  | j, false :: rest => maskTaints (j + 1) rest

def maskNames : Nat → List Bool → List String
  | _, [] => []
  | j, _ :: rest => xName j :: maskNames (j + 1) rest

/-- `var d = require("debug"); var x0 = d("x"), x1 = 1, ...;` -/
def maskProg (mask : List Bool) : Program :=
  [seedStmt, Stmt.varDecl (maskDecls 0 mask)]

def isDeclaratorFrame : Anc → Bool
  | .declarator _ _ _ _ => true
  | _ => false

def isCalleeFrame : List Anc → Bool
  | .call _ true :: _ => true
  | _ => false

/-- `import {debug as d} from "debug"; var a = d("x");
console.log(a.enabled);` — the analysis traversal itself rewrites the
member expression `a.enabled`. -/
def exMemberRead : Program :=
  [Stmt.importDecl "debug" [.namedSpec "debug" "d"],
   Stmt.varDecl [⟨Pat.id "a", some (.call (.ident "d") (arg1 (.str "a")))⟩],
   Stmt.exprStmt (.call (.member (.ident "console") "log")
     (arg1 (.member (.ident "a") "enabled")))]

/-- `var log = require("debug"); g(log("x"));` — the tainted call
`log("x")` sits inside another call, so its parent is not a statement. -/
def exNestedCall : Program :=
  [Stmt.varDecl [⟨Pat.id "log", some requireDebug⟩],
   Stmt.exprStmt (.call (.ident "g") (arg1 (.call (.ident "log") (arg1 (.str "x")))))]

/-- `import {debug as d} from "debug"; var a = d("a");
var z = f(a.enabled); h(g(a.log("b")));` — a member read used as a call
argument inside a declarator, and a member-callee call nested two calls
deep inside a statement. -/
def exMemberUsage : Program :=
  [Stmt.importDecl "debug" [.namedSpec "debug" "d"],
   Stmt.varDecl [⟨Pat.id "a", some (.call (.ident "d") (arg1 (.str "a")))⟩],
   Stmt.varDecl [⟨Pat.id "z", some (.call (.ident "f") (arg1 (.member (.ident "a") "enabled")))⟩],
   Stmt.exprStmt (.call (.ident "h") (arg1 (.call (.ident "g")
     (arg1 (.call (.member (.ident "a") "log") (arg1 (.str "b")))))))]

/-- `var log = require("debug"); var x = require(f(log("a")), "debug");`
— removing the call argument `f(log("a"))` splices the argument array of
the second `require`, leaving `var x = require("debug")` behind. -/
def exRequireSplice : Program :=
  [Stmt.varDecl [⟨Pat.id "log", some requireDebug⟩],
   Stmt.varDecl [⟨Pat.id "x", some (.call (.ident "require")
     (.cons (.call (.ident "f") (arg1 (.call (.ident "log") (arg1 (.str "a")))))
       (arg1 (.str "debug"))))⟩]]

/-- `var a = require("assert"); assert("a");` — a program with no
reference to the target module. -/
def exAssert : Program :=
  [Stmt.varDecl [⟨Pat.id "a", some (.call (.ident "require") (arg1 (.str "assert")))⟩],
   Stmt.exprStmt (.call (.ident "assert") (arg1 (.str "a")))]

/- Checks that the embedding reproduces the plugin's own test-suite cases. -/

example :
    transform
      [Stmt.varDecl [⟨Pat.id "d", some requireDebug⟩],
       Stmt.varDecl [⟨Pat.id "a", some (.call (.ident "d") (arg1 (.str "a")))⟩],
       Stmt.exprStmt (.call (.ident "a") (arg1 (.str "b")))] = [] := by decide

example :
    transform exAssert = exAssert := by decide

example :
    transform
      [Stmt.varDecl [⟨Pat.id "a", some (.call requireDebug (arg1 (.str "a")))⟩],
       Stmt.exprStmt (.call (.ident "a") (arg1 (.str "b")))] = [] := by decide

example :
    transform
      [Stmt.importDecl "debug" [.namedSpec "debug" "d"],
       Stmt.varDecl [⟨Pat.id "a", some (.call (.ident "d") (arg1 (.str "a")))⟩],
       Stmt.exprStmt (.call (.member (.ident "console") "log")
         (.cons (.str "is a.enabled?") (arg1 (.member (.ident "a") "enabled"))))] =
      [Stmt.exprStmt (.call (.member (.ident "console") "log")
         (.cons (.str "is a.enabled?") (arg1 (.ident "undefined"))))] := by decide

example :
    transform
      [Stmt.importDecl "debug" [.namedSpec "debug" "d"],
       Stmt.varDecl [⟨Pat.id "a", some (.call (.ident "d") (arg1 (.str "a")))⟩,
                     ⟨Pat.id "other", some (.num 123)⟩],
       Stmt.exprStmt (.call (.ident "a") (arg1 (.str "b"))),
       Stmt.exprStmt (.call (.ident "console") (arg1 (.ident "other")))] =
      [Stmt.varDecl [⟨Pat.id "other", some (.num 123)⟩],
       Stmt.exprStmt (.call (.ident "console") (arg1 (.ident "other")))] := by decide

example :
    transform
      [Stmt.importDecl "debug" [.defaultSpec "debug"],
       Stmt.varDecl [⟨Pat.objPat ["extend", "enable"], some (.ident "debug")⟩],
       Stmt.varDecl [⟨Pat.id "log", some (.call (.ident "extend") (arg1 (.str "sub")))⟩],
       Stmt.exprStmt (.call (.ident "enable") (arg1 (.str "*")))] = [] := by decide

example :
    transform
      [Stmt.importDecl "debug" [.namedSpec "debug" "d"],
       Stmt.varDecl [⟨Pat.id "a", some (.call (.ident "d") (arg1 (.str "a")))⟩],
       Stmt.varDecl [⟨Pat.id "b", some (.member (.ident "a") "log")⟩],
       Stmt.exprStmt (.call (.ident "b") (arg1 (.str "c")))] = [] := by decide

example :
    transform
      [Stmt.importDecl "debug" [.namedSpec "debug" "d"],
       Stmt.varDecl [⟨Pat.id "a", some (.call (.ident "d") (arg1 (.str "a")))⟩],
       Stmt.exprStmt (.call (.member (.ident "a") "log") (arg1 (.str "b")))] = [] := by decide
theorem tainted_addMark (a : Addr) (s : AState) : (addMark a s).tainted = s.tainted := by
  rw [addMark]; split <;> rfl

theorem marks_addTaint (n : String) (s : AState) : (addTaint n s).marks = s.marks := by
  rw [addTaint]; split <;> rfl

theorem mem_tainted_addTaint_self (n : String) (s : AState) : n ∈ (addTaint n s).tainted := by
  rw [addTaint]; split
  · assumption
  · simp

theorem mem_tainted_addTaint (x n : String) (s : AState) (h : x ∈ s.tainted) :
    x ∈ (addTaint n s).tainted := by
  rw [addTaint]; split
  · exact h
  · simp [h]

theorem mem_marks_addMark_self (a : Addr) (s : AState) : a ∈ (addMark a s).marks := by
  rw [addMark]; split
  · assumption
  · simp

theorem mem_marks_addMark (x a : Addr) (s : AState) (h : x ∈ s.marks) :
    x ∈ (addMark a s).marks := by
  rw [addMark]; split
  · exact h
  · simp [h]

theorem addTaint_of_mem {n : String} {s : AState} (h : n ∈ s.tainted) : addTaint n s = s := by
  rw [addTaint, if_pos h]

theorem addMark_addMark_self (a : Addr) (s : AState) :
    addMark a (addMark a s) = addMark a s := by
  conv_lhs => rw [addMark]
  rw [if_pos (mem_marks_addMark_self a s)]

theorem addTaint_fresh {n : String} {s : AState} (h : n ∉ s.tainted) :
    addTaint n s = ⟨s.tainted ++ [n], s.marks⟩ := by
  rw [addTaint, if_neg h]

theorem addMark_fresh {a : Addr} {s : AState} (h : a ∉ s.marks) :
    addMark a s = ⟨s.tainted, s.marks ++ [a]⟩ := by
  rw [addMark, if_neg h]

theorem callVisitor_tainted_nil (declared : List String) (ctx : List Anc) (callee : Expr)
    (s : AState) (h : s.tainted = []) : callVisitor declared ctx callee s = s := by
  cases callee <;> simp [callVisitor, h]
  case member o prop => cases o <;> simp [h]

theorem identVisitor_tainted_nil (declared : List String) (ctx : List Anc) (n : String)
    (s : AState) (h : s.tainted = []) : identVisitor declared ctx n s = (s, false) := by
  simp [identVisitor, h]

mutual
theorem visitExpr_tainted_nil (declared : List String) (addr : Addr) (ctx : List Anc)
    (e : Expr) (s : AState) (h : s.tainted = []) :
    visitExpr declared addr ctx e s = (e, s, false) := by
  cases e with
  | call callee args =>
      rw [visitExpr, callVisitor_tainted_nil declared ctx callee s h,
        visitExpr_tainted_nil declared (addr ++ [0]) (.call addr true :: ctx) callee s h,
        visitArgs_tainted_nil declared addr 1 (.call addr false :: ctx) args s h]
  | member obj prop =>
      rw [visitExpr, visitExpr_tainted_nil declared (addr ++ [0]) (.member addr :: ctx) obj s h]
      simp
  | ident n => rw [visitExpr, identVisitor_tainted_nil declared ctx n s h]
  | str v => rfl
  | num v => rfl
  | nullNode => rfl

theorem visitArgs_tainted_nil (declared : List String) (base : Addr) (k : Nat)
    (ctx : List Anc) (args : ExprList) (s : AState) (h : s.tainted = []) :
    visitArgs declared base k ctx args s = (args, s) := by
  cases args with
  | nil => rfl
  | cons a rest =>
      rw [visitArgs, visitExpr_tainted_nil declared (base ++ [k]) ctx a s h,
        visitArgs_tainted_nil declared base (k + 1) ctx rest s h]
end

theorem varDeclaratorVisitor_noop (declared : List String) (dAddr declnAddr : Addr)
    (sibs : Nat) (d : Declarator) (s : AState) (h : s.tainted = [])
    (hs : seedInit d.init = false) :
    varDeclaratorVisitor declared dAddr declnAddr sibs d s = s := by
  have h1 :
      (match d.init with
        | some (.call (.ident "require") args) =>
            if firstArgIsDebug args then
              addMark (getVariablePathToRemove dAddr declnAddr sibs) (taintIdPat declared d.id s)
            else s
        | _ => s) = s := by
    split
    · next args heq => simp [seedInit, heq] at hs; simp [hs]
    · rfl
  have h2 :
      (match d.init with
        | some (.call (.call (.ident "require") args) _) =>
            if firstArgIsDebug args then
              addMark (getVariablePathToRemove dAddr declnAddr sibs) (taintIdPat declared d.id s)
            else s
        | _ => s) = s := by
    split
    · next args _ heq => simp [seedInit, heq] at hs; simp [hs]
    · rfl
  unfold varDeclaratorVisitor
  dsimp only
  rw [h1, h2]
  split
  · next names m heq1 heq2 => simp [h]
  · rfl

theorem visitDecls_noop (declared : List String) (i sibs : Nat) (s : AState)
    (h : s.tainted = []) :
    ∀ (j : Nat) (ds : List Declarator), ds.all (fun d => !seedInit d.init) = true →
      visitDecls declared i sibs j ds s = (ds, s) := by
  intro j ds
  induction ds generalizing j with
  | nil => intro _; rfl
  | cons d rest ih =>
      intro hall
      rw [List.all_cons, Bool.and_eq_true] at hall
      have hd : seedInit d.init = false := by
        cases hseed : seedInit d.init <;> simp [hseed] at hall ⊢
      rw [visitDecls, varDeclaratorVisitor_noop declared [i, j] [i] sibs d s h hd]
      have hinit :
          (match d.init with
            | none => (none, s)
            | some e =>
                let re := visitExpr declared [i, j, 1] [.declarator [i, j] d.id sibs [i]] e s
                (some re.1, re.2.1)) = (d.init, s) := by
        cases d.init with
        | none => rfl
        | some e =>
            dsimp only
            rw [visitExpr_tainted_nil declared [i, j, 1]
              [.declarator [i, j] d.id sibs [i]] e s h]
      rw [hinit]
      dsimp only
      rw [ih (j + 1) hall.2]

theorem visitStmt_noop (declared : List String) (i : Nat) (st : Stmt) (s : AState)
    (h : s.tainted = []) (hs : stmtSeedFree st = true) :
    visitStmt declared i st s = (st, s) := by
  cases st with
  | varDecl ds =>
      rw [visitStmt, visitDecls_noop declared i ds.length s h 0 ds hs]
  | importDecl source specifiers =>
      rw [visitStmt, visitImportDecl]
      rw [stmtSeedFree] at hs
      simp at hs
      simp [hs]
  | exprStmt e =>
      rw [visitStmt, visitExpr_tainted_nil declared [i, 0] [.stmtExpr [i]] e s h]

theorem visitStmts_noop (declared : List String) (s : AState) (h : s.tainted = []) :
    ∀ (i : Nat) (p : Program), seedFree p = true → visitStmts declared i p s = (p, s) := by
  intro i p
  induction p generalizing i with
  | nil => intro _; rfl
  | cons st rest ih =>
      intro hsf
      rw [seedFree, List.all_cons, Bool.and_eq_true] at hsf
      rw [visitStmts, visitStmt_noop declared i st s h hsf.1]
      dsimp only
      rw [ih (i + 1) hsf.2]

mutual
theorem removeExpr_nil (addr : Addr) (e : Expr) : removeExpr [] addr e = e := by
  cases e with
  | call callee args =>
      rw [removeExpr, removeArgs_nil addr 1 args]
      simp [removeExpr_nil (addr ++ [0]) callee]
  | member obj prop =>
      rw [removeExpr]
      simp [removeExpr_nil (addr ++ [0]) obj]
  | ident n => rfl
  | str v => rfl
  | num v => rfl
  | nullNode => rfl

theorem removeArgs_nil (base : Addr) (k : Nat) (args : ExprList) :
    removeArgs [] base k args = args := by
  cases args with
  | nil => rfl
  | cons a rest =>
      rw [removeArgs, removeArgs_nil base (k + 1) rest]
      simp [removeExpr_nil (base ++ [k]) a]
end

theorem applyDecls_nil (i : Nat) : ∀ (j : Nat) (ds : List Declarator),
    applyDecls [] i j ds = ds := by
  intro j ds
  induction ds generalizing j with
  | nil => rfl
  | cons d rest ih =>
      rw [applyDecls, ih (j + 1)]
      simp
      cases d with
      | mk pid init => cases init <;> simp [removeExpr_nil]

theorem applyStmt_nil (i : Nat) (st : Stmt) : applyStmt [] i st = some st := by
  cases st with
  | varDecl ds =>
      rw [applyStmt]
      simp [applyDecls_nil i 0 ds]
  | importDecl source specifiers => simp [applyStmt]
  | exprStmt e => simp [applyStmt, removeExpr_nil]

theorem applyRemovals_nil : ∀ (i : Nat) (p : Program), applyRemovals [] i p = p := by
  intro i p
  induction p generalizing i with
  | nil => rfl
  | cons st rest ih => rw [applyRemovals, applyStmt_nil i st, ih (i + 1)]

/-- A program with no `require('debug')` seed declarator and no import from
`'debug'` is returned unchanged by the transform. -/

theorem seedFree_transform_eq (p : Program) (h : seedFree p = true) : transform p = p := by
  rw [transform, analyze, analyzeWith, visitStmts_noop (declaredNames p) ⟨[], []⟩ rfl 0 p h]
  exact applyRemovals_nil 0 p

mutual
theorem exprReplOnly_refl (e : Expr) : exprReplOnly e e = true := by
  cases e with
  | call c a => simp [exprReplOnly, exprReplOnly_refl c, argsReplOnly_refl a]
  | member o p => simp [exprReplOnly, exprReplOnly_refl o]
  | ident n => simp [exprReplOnly]
  | str v => simp [exprReplOnly]
  | num v => simp [exprReplOnly]
  | nullNode => simp [exprReplOnly]

theorem argsReplOnly_refl (args : ExprList) : argsReplOnly args args = true := by
  cases args with
  | nil => simp [argsReplOnly]
  | cons e r => simp [argsReplOnly, exprReplOnly_refl e, argsReplOnly_refl r]
end

mutual
theorem visitExpr_replOnly (declared : List String) (addr : Addr) (ctx : List Anc)
    (e : Expr) (s : AState) :
    exprReplOnly e (visitExpr declared addr ctx e s).1 = true := by
  cases e with
  | call callee args =>
      rw [visitExpr]
      simp only [exprReplOnly, Bool.and_eq_true]
      exact And.intro
        (visitExpr_replOnly declared (addr ++ [0]) (.call addr true :: ctx) callee _)
        (visitArgs_replOnly declared addr 1 (.call addr false :: ctx) args _)
  | member obj prop =>
      rw [visitExpr]
      split
      · simp [exprReplOnly]
      · simp only [exprReplOnly]
        simp [visitExpr_replOnly declared (addr ++ [0]) (.member addr :: ctx) obj s]
  | ident n => simp [visitExpr, exprReplOnly]
  | str v => simp [visitExpr, exprReplOnly]
  | num v => simp [visitExpr, exprReplOnly]
  | nullNode => simp [visitExpr, exprReplOnly]

theorem visitArgs_replOnly (declared : List String) (base : Addr) (k : Nat)
    (ctx : List Anc) (args : ExprList) (s : AState) :
    argsReplOnly args (visitArgs declared base k ctx args s).1 = true := by
  cases args with
  | nil => simp [visitArgs, argsReplOnly]
  | cons a rest =>
      rw [visitArgs]
      simp only [argsReplOnly, Bool.and_eq_true]
      exact And.intro (visitExpr_replOnly declared (base ++ [k]) ctx a _)
        (visitArgs_replOnly declared base (k + 1) ctx rest _)
end

theorem visitDecls_replOnly (declared : List String) (i sibs : Nat) :
    ∀ (j : Nat) (ds : List Declarator) (s : AState),
      declsReplOnly ds (visitDecls declared i sibs j ds s).1 = true := by
  intro j ds
  induction ds generalizing j with
  | nil => intro s; simp [visitDecls, declsReplOnly]
  | cons d rest ih =>
      intro s
      rw [visitDecls]
      simp only [declsReplOnly, Bool.and_eq_true]
      refine ⟨⟨by simp, ?_⟩, ih (j + 1) _⟩
      cases d with
      | mk pid init =>
          cases init with
          | none => simp [optInitReplOnly]
          | some e =>
              simp only [optInitReplOnly]
              exact visitExpr_replOnly declared [i, j, 1] [.declarator [i, j] pid sibs [i]] e _

theorem visitStmt_replOnly (declared : List String) (i : Nat) (st : Stmt) (s : AState) :
    stmtReplOnly st (visitStmt declared i st s).1 = true := by
  cases st with
  | varDecl ds =>
      rw [visitStmt]
      exact visitDecls_replOnly declared i ds.length 0 ds s
  | importDecl source specifiers => simp [visitStmt, stmtReplOnly]
  | exprStmt e =>
      rw [visitStmt]
      exact visitExpr_replOnly declared [i, 0] [.stmtExpr [i]] e s

theorem visitStmts_replOnly (declared : List String) :
    ∀ (i : Nat) (p : Program) (s : AState),
      progReplOnly p (visitStmts declared i p s).1 = true := by
  intro i p
  induction p generalizing i with
  | nil => intro s; simp [visitStmts, progReplOnly]
  | cons st rest ih =>
      intro s
      rw [visitStmts]
      simp only [progReplOnly, Bool.and_eq_true]
      exact ⟨visitStmt_replOnly declared i st s, ih (i + 1) _⟩

theorem bName_data (j : Nat) : (bName j).data = List.replicate j 'b' := rfl

theorem bName_inj {i j : Nat} (h : bName i = bName j) : i = j := by
  have hd := congrArg String.data h
  rw [bName_data, bName_data] at hd
  have hl := congrArg List.length hd
  simpa using hl

theorem bName_ne_require (j : Nat) : bName j ≠ "require" := by
  intro h
  have hd := congrArg String.data h
  rw [bName_data] at hd
  have hl := congrArg List.length hd
  simp at hl
  subst hl
  exact absurd hd (by decide)

theorem bName_ne_d (j : Nat) : bName j ≠ "d" := by
  intro h
  have hd := congrArg String.data h
  rw [bName_data] at hd
  have hl := congrArg List.length hd
  simp at hl
  subst hl
  exact absurd hd (by decide)

theorem visitStmt_alias (declared : List String) (i : Nat) (x y : String) (s : AState)
    (hx : x ∈ declared) (hxt : x ∈ s.tainted) (hy : y ∈ declared) :
    visitStmt declared i (Stmt.varDecl [⟨Pat.id y, some (.ident x)⟩]) s =
      (Stmt.varDecl [⟨Pat.id y, some (.ident x)⟩], addMark [i] (addTaint y s)) := by
  simp [visitStmt, visitDecls, varDeclaratorVisitor, visitExpr, identVisitor, taintIdPat,
    getVariablePathToRemove, hx, hxt, hy]

theorem visitStmt_seed (declared : List String) (i : Nat) (s : AState)
    (hd : "d" ∈ declared) (hreq : "require" ∉ declared) :
    visitStmt declared i seedStmt s = (seedStmt, addMark [i] (addTaint "d" s)) := by
  simp [visitStmt, seedStmt, visitDecls, varDeclaratorVisitor, visitExpr, visitArgs,
    callVisitor, identVisitor, taintIdPat, getVariablePathToRemove, firstArgIsDebug,
    requireDebug, arg1, litValue, hd, hreq]

theorem visitStmt_b1 (declared : List String) (i : Nat) (s : AState)
    (hd : "d" ∈ declared) (hdt : "d" ∈ s.tainted) (hb : bName 1 ∈ declared) :
    visitStmt declared i b1Stmt s =
      (b1Stmt, addMark [i, 0] (addMark [i] (addTaint (bName 1) s))) := by
  have hdt2 : "d" ∈ (addMark [i] (addTaint (bName 1) s)).tainted := by
    rw [tainted_addMark]
    exact mem_tainted_addTaint "d" (bName 1) s hdt
  simp [visitStmt, b1Stmt, visitDecls, varDeclaratorVisitor, visitExpr, visitArgs,
    callVisitor, identVisitor, taintIdPat, getVariablePathToRemove, firstArgIsDebug,
    arg1, litValue, hd, hdt, hb, hdt2, ancNodeAddr]

theorem declared_aliasFrom : ∀ (c i : Nat),
    declaredNames (aliasFrom i c) = (List.range c).map (fun k => bName (i + 1 + k)) := by
  intro c
  induction c with
  | zero => intro i; rfl
  | succ c ih =>
      intro i
      rw [aliasFrom, declaredNames, ih (i + 1), List.range_succ_eq_map]
      simp [declaredOfStmt, patNames]
      intro k hk
      congr 1
      omega

theorem mem_declared_aliasFrom {j : Nat} : ∀ (c i : Nat), i + 1 ≤ j → j ≤ i + c →
    bName j ∈ declaredNames (aliasFrom i c) := by
  intro c i h1 h2
  rw [declared_aliasFrom c i]
  simp only [List.mem_map, List.mem_range]
  exact ⟨j - (i + 1), by omega, by congr 1; omega⟩

theorem visit_aliasFrom (declared : List String) :
    ∀ (c i : Nat) (s : AState), bName i ∈ declared → bName i ∈ s.tainted →
      (∀ j, i + 1 ≤ j → j ≤ i + c → bName j ∈ declared) →
      (visitStmts declared (i + 1) (aliasFrom i c) s).1 = aliasFrom i c ∧
      (∀ x, x ∈ s.tainted → x ∈ (visitStmts declared (i + 1) (aliasFrom i c) s).2.tainted) ∧
      (∀ a, a ∈ s.marks → a ∈ (visitStmts declared (i + 1) (aliasFrom i c) s).2.marks) ∧
      (∀ j, i + 1 ≤ j → j ≤ i + c →
        bName j ∈ (visitStmts declared (i + 1) (aliasFrom i c) s).2.tainted ∧
        [j] ∈ (visitStmts declared (i + 1) (aliasFrom i c) s).2.marks) := by
  intro c
  induction c with
  | zero =>
      intro i s _ _ _
      refine ⟨rfl, fun x h => h, fun a h => h, fun j h1 h2 => ?_⟩
      omega
  | succ c ih =>
      intro i s hid hit hdecl
      have hy : bName (i + 1) ∈ declared := hdecl (i + 1) (by omega) (by omega)
      rw [aliasFrom, visitStmts,
        visitStmt_alias declared (i + 1) (bName i) (bName (i + 1)) s hid hit hy]
      dsimp only
      set s1 := addMark [i + 1] (addTaint (bName (i + 1)) s) with hs1
      have hit1 : bName (i + 1) ∈ s1.tainted := by
        rw [hs1, tainted_addMark]
        exact mem_tainted_addTaint_self (bName (i + 1)) s
      have hdecl1 : ∀ j, i + 2 ≤ j → j ≤ i + 1 + c → bName j ∈ declared := by
        intro j h1 h2
        exact hdecl j (by omega) (by omega)
      obtain ⟨htree, htaint, hmarks, hrange⟩ := ih (i + 1) s1 hy hit1 hdecl1
      have hsub : ∀ x, x ∈ s.tainted →
          x ∈ (visitStmts declared (i + 2) (aliasFrom (i + 1) c) s1).2.tainted := by
        intro x hx
        apply htaint
        rw [hs1, tainted_addMark]
        exact mem_tainted_addTaint x (bName (i + 1)) s hx
      have hmsub : ∀ a, a ∈ s.marks →
          a ∈ (visitStmts declared (i + 2) (aliasFrom (i + 1) c) s1).2.marks := by
        intro a ha
        apply hmarks
        rw [hs1]
        apply mem_marks_addMark
        rw [marks_addTaint]
        exact ha
      refine ⟨by rw [htree], hsub, hmsub, fun j h1 h2 => ?_⟩
      by_cases hj : j = i + 1
      · subst hj
        constructor
        · apply htaint; exact hit1
        · apply hmarks
          rw [hs1]
          exact mem_marks_addMark_self [i + 1] (addTaint (bName (i + 1)) s)
      · exact hrange j (by omega) (by omega)

theorem applyStmt_none (marks : List Addr) (i : Nat) (st : Stmt) (h : [i] ∈ marks) :
    applyStmt marks i st = none := by
  cases st <;> simp [applyStmt, h]

theorem applyRemovals_marked : ∀ (p : Program) (marks : List Addr) (i : Nat),
    (∀ j, i ≤ j → j < i + p.length → [j] ∈ marks) → applyRemovals marks i p = [] := by
  intro p
  induction p with
  | nil => intro marks i _; rfl
  | cons st rest ih =>
      intro marks i h
      rw [applyRemovals, applyStmt_none marks i st (h i (by omega) (by simp))]
      exact ih marks (i + 1) (fun j h1 h2 => h j (by omega) (by simp; omega))

theorem visit_aliasFrom_stable (declared : List String) :
    ∀ (c i : Nat) (s : AState), bName i ∈ declared →
      (∀ j, i ≤ j → j ≤ i + c → bName j ∈ s.tainted) →
      (∀ j, i + 1 ≤ j → j ≤ i + c → bName j ∈ declared) →
      (visitStmts declared (i + 1) (aliasFrom i c) s).2.tainted = s.tainted := by
  intro c
  induction c with
  | zero => intro i s _ _ _; rfl
  | succ c ih =>
      intro i s hid htaint hdecl
      have hy : bName (i + 1) ∈ declared := hdecl (i + 1) (by omega) (by omega)
      rw [aliasFrom, visitStmts, visitStmt_alias declared (i + 1) (bName i) (bName (i + 1)) s
        hid (htaint i (by omega) (by omega)) hy]
      dsimp only
      rw [addTaint_of_mem (htaint (i + 1) (by omega) (by omega))]
      have := ih (i + 1) (addMark [i + 1] s) hy
        (fun j h1 h2 => by rw [tainted_addMark]; exact htaint j (by omega) (by omega))
        (fun j h1 h2 => hdecl j (by omega) (by omega))
      rw [this, tainted_addMark]

theorem declared_chainProg (m : Nat) :
    declaredNames (chainProg m) = "d" :: bName 1 :: declaredNames (aliasFrom 1 m) := by
  simp [chainProg, declaredNames, declaredOfStmt, seedStmt, b1Stmt, patNames]

theorem chain_hd (m : Nat) : "d" ∈ declaredNames (chainProg m) := by
  rw [declared_chainProg]; simp

theorem chain_hb (m : Nat) : ∀ j, 1 ≤ j → j ≤ m + 1 →
    bName j ∈ declaredNames (chainProg m) := by
  intro j h1 h2
  rw [declared_chainProg]
  by_cases hj : j = 1
  · subst hj; simp
  · simp only [List.mem_cons]
    right; right
    exact mem_declared_aliasFrom m 1 (by omega) (by omega)

theorem chain_hreq (m : Nat) : "require" ∉ declaredNames (chainProg m) := by
  rw [declared_chainProg]
  simp only [List.mem_cons]
  intro h
  rcases h with h | h | h
  · exact absurd h (by decide)
  · exact absurd h.symm (bName_ne_require 1)
  · rw [declared_aliasFrom] at h
    simp only [List.mem_map] at h
    obtain ⟨k, _, hk⟩ := h
    exact absurd hk (bName_ne_require _)

theorem aliasFrom_length : ∀ (c i : Nat), (aliasFrom i c).length = c := by
  intro c
  induction c with
  | zero => intro i; rfl
  | succ c ih => intro i; rw [aliasFrom, List.length_cons, ih (i + 1)]

theorem xName_data (j : Nat) : (xName j).data = List.replicate (j + 1) 'x' := rfl

theorem xName_inj {i j : Nat} (h : xName i = xName j) : i = j := by
  have hd := congrArg String.data h
  rw [xName_data, xName_data] at hd
  have hl := congrArg List.length hd
  simpa using hl

theorem xName_ne_d (j : Nat) : xName j ≠ "d" := by
  intro h
  have hd := congrArg String.data h
  rw [xName_data] at hd
  have hl := congrArg List.length hd
  simp at hl
  rw [hl] at hd
  exact absurd hd (by decide)

theorem xName_ne_require (j : Nat) : xName j ≠ "require" := by
  intro h
  have hd := congrArg String.data h
  rw [xName_data] at hd
  have hl := congrArg List.length hd
  simp at hl
  rw [hl] at hd
  exact absurd hd (by decide)

theorem maskDecls_length : ∀ (mask : List Bool) (j : Nat),
    (maskDecls j mask).length = mask.length := by
  intro mask
  induction mask with
  | nil => intro j; rfl
  | cons b rest ih =>
      intro j
      cases b <;> rw [maskDecls, List.length_cons, ih (j + 1), List.length_cons]

theorem maskMarks_shape : ∀ (mask : List Bool) (j : Nat) (a : Addr),
    a ∈ maskMarks j mask → ∃ j', j ≤ j' ∧ a = [1, j'] := by
  intro mask
  induction mask with
  | nil => intro j a h; rw [maskMarks] at h; exact absurd h (List.not_mem_nil a)
  | cons b rest ih =>
      intro j a h
      cases b with
      | true =>
          rw [maskMarks] at h
          rcases List.mem_cons.mp h with h | h
          · exact ⟨j, le_rfl, h⟩
          · obtain ⟨j', hj', ha⟩ := ih (j + 1) a h
            exact ⟨j', by omega, ha⟩
      | false =>
          rw [maskMarks] at h
          obtain ⟨j', hj', ha⟩ := ih (j + 1) a h
          exact ⟨j', by omega, ha⟩

theorem visitDecls_mask (declared : List String) (k : Nat) (hk : k ≠ 1) :
    ∀ (mask : List Bool) (j : Nat) (s : AState),
      "d" ∈ declared → "d" ∈ s.tainted →
      (∀ j', j ≤ j' → j' < j + mask.length → xName j' ∈ declared) →
      (∀ j', j ≤ j' → xName j' ∉ s.tainted) →
      (∀ j', j ≤ j' → [1, j'] ∉ s.marks) →
      visitDecls declared 1 k j (maskDecls j mask) s =
        (maskDecls j mask,
          ⟨s.tainted ++ maskTaints j mask, s.marks ++ maskMarks j mask⟩) := by
  intro mask
  induction mask with
  | nil =>
      intro j s _ _ _ _ _
      rw [maskDecls, maskTaints, maskMarks, visitDecls]
      simp
  | cons b rest ih =>
      intro j s hd hdt hx hft hfm
      cases b with
      | true =>
          have hxj : xName j ∈ declared := hx j le_rfl (by simp)
          have hstep :
              visitExpr declared [1, j, 1] [.declarator [1, j] (Pat.id (xName j)) k [1]]
                (Expr.call (.ident "d") (arg1 (.str "x"))) s =
              (Expr.call (.ident "d") (arg1 (.str "x")),
                addMark [1, j] (addMark [1, j] (addTaint (xName j) s)), false) := by
            have hdt2 : "d" ∈ (addMark [1, j] (addTaint (xName j) s)).tainted := by
              rw [tainted_addMark]
              exact mem_tainted_addTaint "d" (xName j) s hdt
            simp [visitExpr, visitArgs, callVisitor, identVisitor, taintIdPat,
              getVariablePathToRemove, ancNodeAddr, arg1, hd, hdt, hxj, hdt2, hk]
          have hs' : addMark [1, j] (addMark [1, j] (addTaint (xName j) s)) =
              (⟨s.tainted ++ [xName j], s.marks ++ [[1, j]]⟩ : AState) := by
            rw [addMark_addMark_self, addTaint_fresh (hft j le_rfl)]
            exact addMark_fresh (hfm j le_rfl)
          have hvdv : varDeclaratorVisitor declared [1, j] [1] k
              ⟨Pat.id (xName j), some (Expr.call (.ident "d") (arg1 (.str "x")))⟩ s = s := by
            simp [varDeclaratorVisitor, arg1]
          rw [maskDecls, visitDecls]
          dsimp only
          rw [hvdv, hstep]
          dsimp only
          rw [hs']
          rw [ih (j + 1) ⟨s.tainted ++ [xName j], s.marks ++ [[1, j]]⟩
            hd (by simp [hdt])
            (fun j' h1 h2 => hx j' (by omega) (by simp at h2 ⊢; omega))
            (fun j' h1 => by
              simp only [List.mem_append, List.mem_singleton]
              push_neg
              exact ⟨hft j' (by omega), fun he => absurd (xName_inj he) (by omega)⟩)
            (fun j' h1 => by
              simp only [List.mem_append, List.mem_singleton]
              push_neg
              refine ⟨hfm j' (by omega), fun he => ?_⟩
              simp at he
              omega)]
          rw [maskTaints, maskMarks]
          simp
      | false =>
          have hvdv : varDeclaratorVisitor declared [1, j] [1] k
              ⟨Pat.id (xName j), some (Expr.num 1)⟩ s = s := by
            simp [varDeclaratorVisitor]
          rw [maskDecls, visitDecls]
          dsimp only
          rw [hvdv]
          have hnum : visitExpr declared [1, j, 1]
              [.declarator [1, j] (Pat.id (xName j)) k [1]] (Expr.num 1) s =
              (Expr.num 1, s, false) := rfl
          rw [hnum]
          dsimp only
          rw [ih (j + 1) s hd hdt
            (fun j' h1 h2 => hx j' (by omega) (by simp at h2 ⊢; omega))
            (fun j' h1 => hft j' (by omega))
            (fun j' h1 => hfm j' (by omega))]
          rw [maskTaints, maskMarks]

theorem foldr_maskDecls : ∀ (mask : List Bool) (j : Nat),
    (maskDecls j mask).foldr (fun d acc => patNames d.id ++ acc) [] = maskNames j mask := by
  intro mask
  induction mask with
  | nil => intro j; rfl
  | cons b rest ih =>
      intro j
      cases b <;> rw [maskDecls, List.foldr_cons, ih (j + 1)] <;> rfl

theorem declared_maskProg (mask : List Bool) :
    declaredNames (maskProg mask) = "d" :: maskNames 0 mask := by
  show declaredOfStmt seedStmt ++ (declaredOfStmt (Stmt.varDecl (maskDecls 0 mask)) ++ []) =
    "d" :: maskNames 0 mask
  rw [declaredOfStmt, foldr_maskDecls]
  simp [declaredOfStmt, seedStmt, patNames]

theorem mem_maskNames : ∀ (mask : List Bool) (j j' : Nat), j ≤ j' → j' < j + mask.length →
    xName j' ∈ maskNames j mask := by
  intro mask
  induction mask with
  | nil => intro j j' h1 h2; simp at h2; omega
  | cons b rest ih =>
      intro j j' h1 h2
      rw [maskNames]
      by_cases hj : j' = j
      · subst hj; simp
      · simp only [List.mem_cons]
        right
        exact ih (j + 1) j' (by omega) (by simp at h2 ⊢; omega)

theorem maskNames_shape : ∀ (mask : List Bool) (j : Nat) (x : String),
    x ∈ maskNames j mask → ∃ j', x = xName j' := by
  intro mask
  induction mask with
  | nil => intro j x h; rw [maskNames] at h; exact absurd h (List.not_mem_nil x)
  | cons b rest ih =>
      intro j x h
      rw [maskNames] at h
      rcases List.mem_cons.mp h with h | h
      · exact ⟨j, h⟩
      · exact ih (j + 1) x h

theorem mask_hreq (mask : List Bool) : "require" ∉ declaredNames (maskProg mask) := by
  rw [declared_maskProg]
  simp only [List.mem_cons]
  intro h
  rcases h with h | h
  · exact absurd h (by decide)
  · obtain ⟨j', hj'⟩ := maskNames_shape mask 0 "require" h
    exact absurd hj'.symm (xName_ne_require j')

theorem keepDecls_ne_nil : ∀ (mask : List Bool) (j : Nat), false ∈ mask →
    keepDecls j mask ≠ [] := by
  intro mask
  induction mask with
  | nil => intro j h; exact absurd h (List.not_mem_nil false)
  | cons b rest ih =>
      intro j h
      cases b with
      | true =>
          rw [keepDecls]
          have : false ∈ rest := by
            rcases List.mem_cons.mp h with h | h
            · exact absurd h.symm (by simp)
            · exact h
          exact ih (j + 1) this
      | false => rw [keepDecls]; simp

theorem apply_maskDecls (M : List Addr) (hM3 : ∀ a, a ∈ M → a = [0] ∨ ∃ j', a = [1, j']) :
    ∀ (mask : List Bool) (j : Nat),
      (∀ j', j ≤ j' → ([1, j'] ∈ M ↔ [1, j'] ∈ maskMarks j mask)) →
      applyDecls M 1 j (maskDecls j mask) = keepDecls j mask := by
  intro mask
  induction mask with
  | nil => intro j _; rw [maskDecls, keepDecls, applyDecls]
  | cons b rest ih =>
      intro j hiff
      have hshift : ∀ j', j + 1 ≤ j' → ([1, j'] ∈ M ↔ [1, j'] ∈ maskMarks (j + 1) rest) := by
        intro j' h1
        rw [hiff j' (by omega)]
        cases b with
        | true =>
            rw [maskMarks]
            simp only [List.mem_cons]
            constructor
            · intro h; rcases h with h | h
              · simp at h; omega
              · exact h
            · intro h; right; exact h
        | false => rw [maskMarks]
      cases b with
      | true =>
          have hmem : [1, j] ∈ M := by
            rw [hiff j le_rfl, maskMarks]
            simp
          rw [maskDecls, applyDecls, keepDecls, if_pos hmem]
          exact ih (j + 1) hshift
      | false =>
          have hmem : [1, j] ∉ M := by
            rw [hiff j le_rfl, maskMarks]
            intro h
            obtain ⟨j', hj', ha⟩ := maskMarks_shape rest (j + 1) [1, j] h
            simp at ha
            omega
          have hinit : [1, j, 1] ∉ M := by
            intro h
            rcases hM3 [1, j, 1] h with h | ⟨j', h⟩ <;> simp at h
          rw [maskDecls, applyDecls, keepDecls, if_neg hmem]
          dsimp only
          rw [if_neg hinit, ih (j + 1) hshift]
          rfl

/-- C1: for a chain of N = m + 1 sequential aliasings of a tainted binding
(`var d = require("debug"); var b1 = d("x"); var b2 = b1; ...`), one run
of the transform taints all N chain bindings and removes all declarations
(the output program is empty), regardless of N; moreover the analysis is
at a fixed point: re-running the analysis pass over the same tree starting
from the computed tainted set discovers no new tainted binding. -/
theorem claim1_chain_fixed_point (m : Nat) :
    (∀ j, 1 ≤ j → j ≤ m + 1 → bName j ∈ (analyze (chainProg m)).2.tainted) ∧
    transform (chainProg m) = [] ∧
    (analyzeWith ⟨(analyze (chainProg m)).2.tainted, []⟩ (chainProg m)).2.tainted =
      (analyze (chainProg m)).2.tainted := by
  have hd := chain_hd m
  have hb := chain_hb m
  have hreq := chain_hreq m
  set D := declaredNames (chainProg m) with hD
  have h1 : visitStmt D 0 seedStmt ⟨[], []⟩ = (seedStmt, ⟨["d"], [[0]]⟩) := by
    rw [visitStmt_seed D 0 ⟨[], []⟩ hd hreq]; rfl
  have hb1 : bName 1 ∈ D := hb 1 le_rfl (by omega)
  have h2 : visitStmt D 1 b1Stmt ⟨["d"], [[0]]⟩ =
      (b1Stmt, addMark [1, 0] (addMark [1] (addTaint (bName 1) ⟨["d"], [[0]]⟩))) :=
    visitStmt_b1 D 1 ⟨["d"], [[0]]⟩ hd (by simp) hb1
  set s2 := addMark [1, 0] (addMark [1] (addTaint (bName 1) ⟨["d"], [[0]]⟩)) with hs2
  have hd_s2 : "d" ∈ s2.tainted := by
    rw [hs2, tainted_addMark, tainted_addMark]
    exact mem_tainted_addTaint "d" (bName 1) ⟨["d"], [[0]]⟩ (by simp)
  have hb1_s2 : bName 1 ∈ s2.tainted := by
    rw [hs2, tainted_addMark, tainted_addMark]
    exact mem_tainted_addTaint_self (bName 1) ⟨["d"], [[0]]⟩
  have hm0_s2 : [0] ∈ s2.marks := by
    rw [hs2]
    apply mem_marks_addMark
    apply mem_marks_addMark
    rw [marks_addTaint]
    simp
  have hm1_s2 : [1] ∈ s2.marks := by
    rw [hs2]
    apply mem_marks_addMark
    exact mem_marks_addMark_self [1] _
  have hdecl : ∀ j, 1 + 1 ≤ j → j ≤ 1 + m → bName j ∈ D := fun j ha hc =>
    hb j (by omega) (by omega)
  obtain ⟨htree, htaint, hmarks, hrange⟩ := visit_aliasFrom D m 1 s2 hb1 hb1_s2 hdecl
  set S := (visitStmts D 2 (aliasFrom 1 m) s2).2 with hS
  have hanalysis : analyze (chainProg m) = (chainProg m, S) := by
    rw [analyze, analyzeWith, ← hD]
    show visitStmts D 0 (seedStmt :: b1Stmt :: aliasFrom 1 m) ⟨[], []⟩ = _
    rw [visitStmts, h1]
    dsimp only
    rw [visitStmts, h2]
    dsimp only
    show (seedStmt :: b1Stmt :: (visitStmts D 2 (aliasFrom 1 m) s2).1,
      (visitStmts D 2 (aliasFrom 1 m) s2).2) = _
    have htree2 : (visitStmts D 2 (aliasFrom 1 m) s2).1 = aliasFrom 1 m := htree
    rw [htree2, ← hS, chainProg]
  have hfinal_taint : ∀ j, 1 ≤ j → j ≤ m + 1 → bName j ∈ S.tainted := by
    intro j hj1 hj2
    by_cases hj : j = 1
    · subst hj; exact htaint (bName 1) hb1_s2
    · exact (hrange j (by omega) (by omega)).1
  refine ⟨?_, ?_, ?_⟩
  · intro j hj1 hj2
    rw [hanalysis]
    exact hfinal_taint j hj1 hj2
  · rw [transform, hanalysis]
    apply applyRemovals_marked
    intro j hj1 hj2
    rw [chainProg, List.length_cons, List.length_cons, aliasFrom_length] at hj2
    by_cases hj0 : j = 0
    · subst hj0; exact hmarks [0] hm0_s2
    · by_cases hj1' : j = 1
      · subst hj1'; exact hmarks [1] hm1_s2
      · exact (hrange j (by omega) (by omega)).2
  · rw [hanalysis]
    dsimp only
    rw [analyzeWith, ← hD]
    show (visitStmts D 0 (seedStmt :: b1Stmt :: aliasFrom 1 m) ⟨S.tainted, []⟩).2.tainted = _
    have hdT : "d" ∈ (⟨S.tainted, []⟩ : AState).tainted := htaint "d" hd_s2
    have hu1 : visitStmt D 0 seedStmt ⟨S.tainted, []⟩ =
        (seedStmt, addMark [0] (⟨S.tainted, []⟩ : AState)) := by
      rw [visitStmt_seed D 0 ⟨S.tainted, []⟩ hd hreq, addTaint_of_mem hdT]
    rw [visitStmts, hu1]
    dsimp only
    set u1 := addMark [0] (⟨S.tainted, []⟩ : AState) with hu1d
    have hu1t : u1.tainted = S.tainted := by rw [hu1d, tainted_addMark]
    have hdu1 : "d" ∈ u1.tainted := by rw [hu1t]; exact htaint "d" hd_s2
    have hb1u1 : bName 1 ∈ u1.tainted := by rw [hu1t]; exact hfinal_taint 1 le_rfl (by omega)
    have hu2 : visitStmt D 1 b1Stmt u1 =
        (b1Stmt, addMark [1, 0] (addMark [1] u1)) := by
      rw [visitStmt_b1 D 1 u1 hd hdu1 hb1, addTaint_of_mem hb1u1]
    rw [visitStmts, hu2]
    dsimp only
    set u2 := addMark [1, 0] (addMark [1] u1) with hu2d
    have hu2t : u2.tainted = S.tainted := by
      rw [hu2d, tainted_addMark, tainted_addMark, hu1t]
    exact (visit_aliasFrom_stable D m 1 u2 hb1
      (fun j hj1 hj2 => by rw [hu2t]; exact hfinal_taint j (by omega) (by omega)) hdecl).trans hu2t


/-- C2 (counterexample): the claim "during the analysis traversal the tree
is never mutated; every placeholder replacement is only recorded in the
plan" is false: on `import {debug as d} from "debug"; var a = d("a");
console.log(a.enabled)` the tree returned by the analysis traversal —
before the apply pass runs — already differs from the input, because
`memberExp.replaceWith(t.identifier('undefined'))` runs during the
traversal. -/
theorem claim2_counterexample : (analyze exMemberRead).1 ≠ exMemberRead := by decide

/-- C2 (amended): during the analysis traversal, the only tree mutations
are in-place replacements of member expressions by the placeholder
identifier `undefined` (performed eagerly by the Identifier visitor);
deletions are never performed during analysis — they are only recorded in
`pathsToRemove`, and the transform applies them in a single pass over the
recorded marks after the analysis completes. -/
theorem claim2_analysis_replacements_only (p : Program) :
    progReplOnly p (analyze p).1 = true ∧
    transform p = applyRemovals (analyze p).2.marks 0 (analyze p).1 :=
  ⟨visitStmts_replOnly (declaredNames p) 0 p ⟨[], []⟩, rfl⟩

/-- C3 (counterexample): the claim "the node marked for deletion is the
nearest enclosing statement node reached by walking upward from the call
expression" is false: in `var log = require("debug"); g(log("x"));` the
tainted call `log("x")` has the call `g(...)` (address `[1, 0]`) as its
immediate parent, and that expression node — not the enclosing expression
statement (address `[1]`) — is what gets marked. -/
theorem claim3_counterexample :
    [1, 0] ∈ (analyze exNestedCall).2.marks ∧ [1] ∉ (analyze exNestedCall).2.marks := by
  decide

/-- C3 (amended): for a call expression whose callee is a tainted
identifier and whose result is not assigned to a declarator (the parent
frame is not a variable declarator), the CallExpression visitor marks the
call expression's immediate parent node (`pathsToRemove.add(path.parentPath)`)
— which coincides with the nearest enclosing statement exactly when the
call is directly the statement's expression — and changes nothing else. -/
theorem claim3_marks_immediate_parent (declared : List String) (anc : Anc) (rest : List Anc) (n : String)
    (s : AState) (h1 : n ∈ declared) (h2 : n ∈ s.tainted)
    (hfr : isDeclaratorFrame anc = false) :
    callVisitor declared (anc :: rest) (Expr.ident n) s = addMark (ancNodeAddr anc) s := by
  cases anc with
  | declarator a p k d => simp [isDeclaratorFrame] at hfr
  | call a b => simp [callVisitor, h1, h2]
  | member a => simp [callVisitor, h1, h2]
  | stmtExpr a => simp [callVisitor, h1, h2]


/-- C3 witness: concrete instance of `claim3_marks_immediate_parent`
with the call at statement level. -/
theorem claim3_marks_immediate_parent_witness :
    ("log" ∈ ["log"] ∧ "log" ∈ (AState.mk ["log"] []).tainted ∧
      isDeclaratorFrame (Anc.stmtExpr [0]) = false) ∧
    callVisitor ["log"] [Anc.stmtExpr [0]] (Expr.ident "log") (AState.mk ["log"] []) =
      addMark [0] (AState.mk ["log"] []) :=
  ⟨⟨by decide, by decide, by decide⟩,
   claim3_marks_immediate_parent ["log"] (Anc.stmtExpr [0]) [] "log"
     (AState.mk ["log"] []) (by decide) (by decide) (by decide)⟩

/-- C4: for a declaration of k declarators of which exactly the masked
j < k are target-derived (initializer calls the tainted binding `d`), the
transform removes exactly those j declarators and the declaration survives
with the remaining k - j declarators in their original relative order; the
sole-declarator-versus-sibling decision is `getVariablePathToRemove`,
taken per declarator from the declarator count the parent declaration has
at that moment (removals are deferred, so it is the original count). -/
theorem claim4_declarator_splitting (mask : List Bool) (hf : false ∈ mask) :
    transform (maskProg mask) = [Stmt.varDecl (keepDecls 0 mask)] := by
  by_cases hlen : mask.length = 1
  · have hmask : mask = [false] := by
      cases mask with
      | nil => simp at hlen
      | cons b rest =>
          simp at hlen
          subst hlen
          rcases List.mem_cons.mp hf with h | h
          · rw [← h]
          · exact absurd h (List.not_mem_nil false)
    subst hmask
    decide
  · set D := declaredNames (maskProg mask) with hD
    have hd : "d" ∈ D := by rw [hD, declared_maskProg]; simp
    have hreq : "require" ∉ D := mask_hreq mask
    have h1 : visitStmt D 0 seedStmt ⟨[], []⟩ = (seedStmt, ⟨["d"], [[0]]⟩) := by
      rw [visitStmt_seed D 0 ⟨[], []⟩ hd hreq]; rfl
    have hx : ∀ j', 0 ≤ j' → j' < 0 + mask.length → xName j' ∈ D := by
      intro j' h1 h2
      rw [hD, declared_maskProg]
      simp only [List.mem_cons]
      right
      exact mem_maskNames mask 0 j' h1 h2
    have hft : ∀ j', 0 ≤ j' → xName j' ∉ (⟨["d"], [[0]]⟩ : AState).tainted := by
      intro j' _
      simp only [List.mem_singleton]
      exact xName_ne_d j'
    have hfm : ∀ j', 0 ≤ j' → [1, j'] ∉ (⟨["d"], [[0]]⟩ : AState).marks := by
      intro j' _
      simp
    have hk : (maskDecls 0 mask).length ≠ 1 := by
      rw [maskDecls_length]
      exact hlen
    have h2 := visitDecls_mask D (maskDecls 0 mask).length hk mask 0 ⟨["d"], [[0]]⟩
      hd (by simp) hx hft hfm
    have hanalysis : analyze (maskProg mask) =
        (maskProg mask,
          ⟨["d"] ++ maskTaints 0 mask, [[0]] ++ maskMarks 0 mask⟩) := by
      rw [analyze, analyzeWith, ← hD]
      show visitStmts D 0 (seedStmt :: [Stmt.varDecl (maskDecls 0 mask)]) ⟨[], []⟩ = _
      rw [visitStmts, h1]
      dsimp only
      rw [visitStmts, visitStmt, h2]
      dsimp only
      rw [visitStmts]
      rfl
    rw [transform, hanalysis]
    dsimp only
    set M := [[0]] ++ maskMarks 0 mask with hM
    have hM3 : ∀ a, a ∈ M → a = [0] ∨ ∃ j', a = [1, j'] := by
      intro a ha
      rw [hM] at ha
      rcases List.mem_append.mp ha with h | h
      · left; simpa using h
      · right
        obtain ⟨j', _, ha'⟩ := maskMarks_shape mask 0 a h
        exact ⟨j', ha'⟩
    have h0M : [0] ∈ M := by rw [hM]; simp
    have h1M : [1] ∉ M := by
      intro h
      rcases hM3 [1] h with h | ⟨j', h⟩ <;> simp at h
    show applyRemovals M 0 (maskProg mask) = _
    rw [maskProg, applyRemovals, applyStmt_none M 0 seedStmt h0M, applyRemovals, applyStmt]
    rw [if_neg h1M]
    dsimp only
    have happ : applyDecls M 1 0 (maskDecls 0 mask) = keepDecls 0 mask := by
      apply apply_maskDecls M hM3 mask 0
      intro j' _
      rw [hM]
      constructor
      · intro h
        rcases List.mem_append.mp h with h | h
        · simp at h
        · exact h
      · intro h
        exact List.mem_append.mpr (Or.inr h)
    rw [happ]
    have hne : (keepDecls 0 mask).isEmpty = false := by
      rw [List.isEmpty_eq_false_iff_exists_mem]
      cases hkd : keepDecls 0 mask with
      | nil => exact absurd hkd (keepDecls_ne_nil mask 0 hf)
      | cons d rest => exact ⟨d, by simp⟩
    rw [hne]
    simp [applyRemovals]


/-- C4 witness: `var d = require("debug");
var x0 = d("x"), x1 = 1, x2 = d("x");` keeps exactly `var x1 = 1`. -/
theorem claim4_declarator_splitting_witness :
    false ∈ [true, false, true] ∧
    transform (maskProg [true, false, true]) =
      [Stmt.varDecl (keepDecls 0 [true, false, true])] :=
  ⟨by decide, claim4_declarator_splitting [true, false, true] (by decide)⟩

/-- C5 (counterexample): the claim "a member expression on a tainted
binding consumed as a value (for example as a call argument) is replaced
in place by `undefined`, and one used as a call callee removes the entire
enclosing statement" is false on `import {debug as d} from "debug";
var a = d("a"); var z = f(a.enabled); h(g(a.log("b")));`: the value read
`a.enabled` is a call argument yet no placeholder appears (the enclosing
declarator is removed instead, because `findParent(isVariableDeclarator)`
wins), and the member-callee call `a.log("b")` does not remove its
enclosing statement — the output keeps `h()` with only the inner argument
spliced out. -/
theorem claim5_counterexample :
    transform exMemberUsage = [Stmt.exprStmt (.call (.ident "h") .nil)] ∧
    transform exMemberUsage ≠
      [Stmt.varDecl [⟨Pat.id "z", some (.call (.ident "f") (arg1 (.ident "undefined")))⟩]] := by
  decide

/-- C5 (amended): visiting a member expression whose object is a tainted
identifier does exactly one of three things, by context: (i) as the callee
of a call, the call's immediate parent node is marked (so the enclosing
statement is removed exactly when that call is the statement's expression)
and no placeholder is inserted; (ii) otherwise, when some ancestor is a
variable declarator, that declarator's binding is tainted and the
declarator (or its sole-declarator declaration) is marked, with no
placeholder; (iii) otherwise — a pure value read — the member expression
is replaced in place by the identifier `undefined` with no mark and no new
taint. -/
theorem claim5_member_object_usage (declared : List String) (addr : Addr) (n prop : String) (s : AState)
    (hn1 : n ∈ declared) (hn2 : n ∈ s.tainted) (hu : "undefined" ∉ declared) :
    (∀ (ca : Addr) (anc : Anc) (rest : List Anc),
      visitExpr declared addr (Anc.call ca true :: anc :: rest)
          (Expr.member (.ident n) prop) s =
        (Expr.member (.ident n) prop, addMark (ancNodeAddr anc) s, false)) ∧
    (∀ (ctx : List Anc) (dAddr : Addr) (m : String) (sibs : Nat) (declnAddr : Addr),
      isCalleeFrame ctx = false →
      findDeclarator ctx = some (dAddr, Pat.id m, sibs, declnAddr) → m ∈ declared →
      visitExpr declared addr ctx (Expr.member (.ident n) prop) s =
        (Expr.member (.ident n) prop,
          addMark (getVariablePathToRemove dAddr declnAddr sibs) (addTaint m s), false)) ∧
    (∀ (ctx : List Anc), isCalleeFrame ctx = false → findDeclarator ctx = none →
      visitExpr declared addr ctx (Expr.member (.ident n) prop) s =
        (Expr.ident "undefined", s, false)) := by
  refine ⟨?_, ?_, ?_⟩
  · intro ca anc rest
    simp [visitExpr, identVisitor, hn1, hn2]
  · intro ctx dAddr m sibs declnAddr hcf hfd hm
    have hni : ∀ (ca : Addr) (r2 : List Anc), ctx ≠ Anc.call ca true :: r2 := by
      intro ca r2 h
      rw [h] at hcf
      simp [isCalleeFrame] at hcf
    cases ctx with
    | nil => rw [findDeclarator] at hfd; exact absurd hfd (by simp)
    | cons a rest =>
        cases a with
        | call ca b =>
            cases b with
            | true => exact absurd rfl (hni ca rest)
            | false => simp [visitExpr, identVisitor, hn1, hn2, hfd, taintIdPat, hm]
        | member ma => simp [visitExpr, identVisitor, hn1, hn2, hfd, taintIdPat, hm]
        | declarator da p k dd =>
            rw [findDeclarator] at hfd
            injection hfd with hfd
            simp only [Prod.mk.injEq] at hfd
            obtain ⟨e1, e2, e3, e4⟩ := hfd
            subst e1
            subst e2
            subst e3
            subst e4
            simp [visitExpr, identVisitor, findDeclarator, hn1, hn2, taintIdPat, hm]
        | stmtExpr sa => simp [visitExpr, identVisitor, hn1, hn2, hfd, taintIdPat, hm]
  · intro ctx hcf hfd
    have hni : ∀ (ca : Addr) (r2 : List Anc), ctx ≠ Anc.call ca true :: r2 := by
      intro ca r2 h
      rw [h] at hcf
      simp [isCalleeFrame] at hcf
    cases ctx with
    | nil => simp [visitExpr, identVisitor, hn1, hn2, findDeclarator, hu]
    | cons a rest =>
        cases a with
        | call ca b =>
            cases b with
            | true => exact absurd rfl (hni ca rest)
            | false => simp [visitExpr, identVisitor, hn1, hn2, hfd, hu]
        | member ma => simp [visitExpr, identVisitor, hn1, hn2, hfd, hu]
        | declarator da p k dd => rw [findDeclarator] at hfd; exact absurd hfd (by simp)
        | stmtExpr sa => simp [visitExpr, identVisitor, hn1, hn2, hfd, hu]

/-- C5 witness: concrete instance of case (iii) of
`claim5_member_object_usage`: a member read in call-argument position at
statement level is replaced in place by `undefined`. -/
theorem claim5_member_object_usage_witness :
    ("a" ∈ ["a"] ∧ "a" ∈ (AState.mk ["a"] []).tainted ∧ "undefined" ∉ ["a"]) ∧
    visitExpr ["a"] [0, 0, 2] [Anc.call [0, 0] false, Anc.stmtExpr [0]]
        (Expr.member (.ident "a") "enabled") (AState.mk ["a"] []) =
      (Expr.ident "undefined", AState.mk ["a"] [], false) :=
  ⟨⟨by decide, by decide, by decide⟩,
   (claim5_member_object_usage ["a"] [0, 0, 2] "a" "enabled" (AState.mk ["a"] [])
       (by decide) (by decide) (by decide)).2.2
     [Anc.call [0, 0] false, Anc.stmtExpr [0]] (by decide) (by decide)⟩

/-- C6 (counterexample): the transform is not idempotent: on
`var log = require("debug"); var x = require(f(log("a")), "debug");` the
first run removes the argument `f(log("a"))`, splicing the argument array
so that the output contains the fresh seed `var x = require("debug")`; a
second run then removes that declaration too. -/
theorem claim6_counterexample :
    transform (transform exRequireSplice) ≠ transform exRequireSplice := by decide

/-- C6 (amended): running the transform a second time yields the first
run's output unchanged provided that output contains no residual seed site
(no `require('debug')` declarator initializer and no import from
`'debug'`); the counterexample shows a first run can manufacture such a
residual seed by splicing call arguments, in which case a second run
removes more. -/
theorem claim6_idempotent_on_seed_free_output (p : Program)
    (h : seedFree (transform p) = true) : transform (transform p) = transform p :=
  seedFree_transform_eq (transform p) h

/-- C6 witness: on `var a = require("assert"); assert("a");` the first
run's output is seed-free and a second run leaves it unchanged. -/
theorem claim6_idempotent_on_seed_free_output_witness :
    seedFree (transform exAssert) = true ∧
    transform (transform exAssert) = transform exAssert :=
  ⟨by decide, claim6_idempotent_on_seed_free_output exAssert (by decide)⟩

/-- C7: any program with no reference to the target module `"debug"` — in
particular any seed-free program: no import from `'debug'` and no
`require('debug')` declarator initializer — is returned by the transform
exactly equal to its input; this covers the empty program, programs
importing or requiring other modules such as `"assert"`, and programs with
unrelated calls. -/
theorem claim7_conservation (p : Program) (h : seedFree p = true) : transform p = p :=
  seedFree_transform_eq p h

/-- C7 witness: `var a = require("assert"); assert("a");` and the empty
program are both left untouched. -/
theorem claim7_conservation_witness :
    (seedFree exAssert = true ∧ transform exAssert = exAssert) ∧ transform [] = [] :=
  ⟨⟨by decide, claim7_conservation exAssert (by decide)⟩, claim7_conservation [] (by decide)⟩

/-- C8: when a call's callee is a tainted identifier and the call is the
initializer of a declarator whose id is an identifier, the CallExpression
visitor taints the newly declared binding and marks the declarator for
removal (the whole declaration when it is the sole declarator, via
`getVariablePathToRemove`); the resulting state gains exactly that taint
and that one mark — in particular the statement-removal mark of the
non-declarator branch is not added. -/
theorem claim8_call_assigned_to_declarator (declared : List String) (dAddr declnAddr : Addr) (m : String)
    (sibs : Nat) (rest : List Anc) (n : String) (s : AState)
    (h1 : n ∈ declared) (h2 : n ∈ s.tainted) (hm : m ∈ declared) :
    callVisitor declared (Anc.declarator dAddr (Pat.id m) sibs declnAddr :: rest)
        (Expr.ident n) s =
      addMark (getVariablePathToRemove dAddr declnAddr sibs) (addTaint m s) := by
  simp [callVisitor, taintIdPat, h1, h2, hm]


/-- C8 witness: `var sub = log("x")` with `log` tainted taints `sub` and
marks the sole-declarator declaration. -/
theorem claim8_call_assigned_to_declarator_witness :
    ("log" ∈ ["log", "sub"] ∧ "log" ∈ (AState.mk ["log"] []).tainted ∧
      "sub" ∈ ["log", "sub"]) ∧
    callVisitor ["log", "sub"] [Anc.declarator [1, 0] (Pat.id "sub") 1 [1]]
        (Expr.ident "log") (AState.mk ["log"] []) =
      addMark [1] (addTaint "sub" (AState.mk ["log"] [])) :=
  ⟨⟨by decide, by decide, by decide⟩,
   claim8_call_assigned_to_declarator ["log", "sub"] [1, 0] [1] "sub" 1 [] "log"
     (AState.mk ["log"] []) (by decide) (by decide) (by decide)⟩

/-- C9: a `require(...)` initializer seeds taint for the declared binding
if and only if the call has at least one argument and the first argument's
literal value is `"debug"`: a zero-argument `require()` never seeds, and
extra arguments after the first do not prevent the match. -/
theorem claim9_require_seed_iff (declared : List String) (dAddr declnAddr : Addr) (sibs : Nat)
    (x : String) (args : ExprList) (s : AState) (hx : x ∈ declared) (hxt : x ∉ s.tainted) :
    x ∈ (varDeclaratorVisitor declared dAddr declnAddr sibs
        ⟨Pat.id x, some (Expr.call (.ident "require") args)⟩ s).tainted ↔
      ∃ a rest, args = ExprList.cons a rest ∧ litValue a = some "debug" := by
  have hv : varDeclaratorVisitor declared dAddr declnAddr sibs
      ⟨Pat.id x, some (Expr.call (.ident "require") args)⟩ s =
      if firstArgIsDebug args then
        addMark (getVariablePathToRemove dAddr declnAddr sibs) (addTaint x s)
      else s := by
    simp [varDeclaratorVisitor, taintIdPat, hx]
  rw [hv]
  constructor
  · intro h
    cases hfa : firstArgIsDebug args with
    | false => rw [hfa] at h; simp at h; exact absurd h hxt
    | true =>
        cases args with
        | nil => rw [firstArgIsDebug] at hfa; exact absurd hfa (by simp)
        | cons a rest =>
            rw [firstArgIsDebug] at hfa
            exact ⟨a, rest, rfl, by simpa using hfa⟩
  · intro ⟨a, rest, hargs, hlit⟩
    subst hargs
    rw [if_pos (by rw [firstArgIsDebug]; simp [hlit]), tainted_addMark]
    exact mem_tainted_addTaint_self x s


/-- C9 witness: `var x = require("debug", 5)` seeds taint for `x` despite
the extra argument. -/
theorem claim9_require_seed_iff_witness :
    ("x" ∈ ["x"] ∧ "x" ∉ (AState.mk [] []).tainted) ∧
    "x" ∈ (varDeclaratorVisitor ["x"] [0, 0] [0] 1
        ⟨Pat.id "x", some (.call (.ident "require")
          (.cons (.str "debug") (arg1 (.num 5))))⟩ (AState.mk [] [])).tainted :=
  ⟨⟨by decide, by decide⟩,
   (claim9_require_seed_iff ["x"] [0, 0] [0] 1 "x"
       (.cons (.str "debug") (arg1 (.num 5))) (AState.mk [] [])
       (by decide) (by decide)).mpr ⟨.str "debug", arg1 (.num 5), rfl, rfl⟩⟩

/-- C10: the seeder recognizes at most one immediate invocation of the
require result: for a declarator `var x = require("debug")("a")("b")`
whose initializer applies the require result twice, the VariableDeclarator
visitor leaves the analysis state untouched — `x` is not tainted by the
seeder and nothing is marked for removal at seeding. -/
theorem claim10_double_invocation_not_seeded (declared : List String) (dAddr declnAddr : Addr) (sibs : Nat)
    (x ns1 ns2 : String) (s : AState) :
    varDeclaratorVisitor declared dAddr declnAddr sibs
      ⟨Pat.id x, some (Expr.call (Expr.call (Expr.call (.ident "require")
        (arg1 (.str "debug"))) (arg1 (.str ns1))) (arg1 (.str ns2)))⟩ s = s := rfl


/-- C1 witness: the chain with N = 3 (`m = 2`) at concrete inputs. -/
theorem claim1_chain_fixed_point_witness :
    (1 ≤ 3 ∧ 3 ≤ 2 + 1 ∧ bName 3 ∈ (analyze (chainProg 2)).2.tainted) ∧
    transform (chainProg 2) = [] ∧
    (analyzeWith ⟨(analyze (chainProg 2)).2.tainted, []⟩ (chainProg 2)).2.tainted =
      (analyze (chainProg 2)).2.tainted :=
  ⟨⟨by decide, by decide, (claim1_chain_fixed_point 2).1 3 (by decide) (by decide)⟩,
   (claim1_chain_fixed_point 2).2.1, (claim1_chain_fixed_point 2).2.2⟩
